import Mathlib

/-!
Shallow embedding of `src/modules/engine_binary.py` (melanoma detection
training harness): the per-epoch step routines `train_step` / `test_step`
and the early-stopping training loop `train`.

Modelling conventions:
* Python floats are modelled as rationals (`ℚ`); `float('inf')` used to
  initialise `best_loss` is modelled as `⊤ : WithTop ℚ`.
* The externally supplied model, optimizer and loss function are opaque
  capabilities: a model type `M`, a per-example forward map
  `forward : M → ι → ℚ`, a loss function on a prediction batch and a
  target batch, and the combined effect of
  `zero_grad(); loss.backward(); optimizer.step()` as an abstract update
  `optUpdate : M → batch → M`.
* A dataloader is a finite list of batches; a batch is a list of
  (input, target) example pairs (inputs and targets are aligned, as a
  PyTorch dataloader yields them).
* Fallible Python code (ZeroDivisionError on an empty dataloader or an
  empty batch, sklearn failing on empty prediction/target sequences)
  is modelled with `Option`.
* The TensorBoard `SummaryWriter` is modelled as a trace of emitted
  events; `writer and example_input is not None` becomes two booleans.
* In the training loop the per-epoch outcome of `train_step`/`test_step`
  is abstracted as a function of the epoch index (execution is
  deterministic, so the epoch index determines the evolving model state
  and hence the metrics of that epoch).
-/

namespace Engine

/-! ### sklearn weighted recall / F1 (external collaborator model)

`recall_score(y_true, y_pred, average='weighted')` and
`f1_score(y_true, y_pred, average='weighted')` over the epoch's collected
(target, prediction) pairs: per-class scores weighted by class support,
classes ranging over every label occurring among targets or predictions,
with the sklearn zero-division convention (a class with no true / no
predicted samples scores 0). -/

/-- The label set sklearn uses: every distinct value occurring in the
true-target or prediction sequences. -/
def labelsOf (pairs : List (ℚ × ℚ)) : List ℚ :=
  (pairs.map Prod.fst ++ pairs.map Prod.snd).dedup

/-- Support of class `c`: number of pairs whose true target is `c`. -/
def supp (pairs : List (ℚ × ℚ)) (c : ℚ) : ℕ :=
  pairs.countP (fun pr => decide (pr.1 = c))

/-- Number of pairs whose prediction is `c`. -/
def predCount (pairs : List (ℚ × ℚ)) (c : ℚ) : ℕ :=
  pairs.countP (fun pr => decide (pr.2 = c))

/-- True positives for class `c`. -/
def truePos (pairs : List (ℚ × ℚ)) (c : ℚ) : ℕ :=
  pairs.countP (fun pr => decide (pr.1 = c ∧ pr.2 = c))

/-- Per-class recall, 0 when the class has no true samples. -/
def recallC (pairs : List (ℚ × ℚ)) (c : ℚ) : ℚ :=
  if supp pairs c = 0 then 0 else (truePos pairs c : ℚ) / (supp pairs c : ℚ)

/-- Per-class precision, 0 when the class is never predicted. -/
def precC (pairs : List (ℚ × ℚ)) (c : ℚ) : ℚ :=
  if predCount pairs c = 0 then 0
  else (truePos pairs c : ℚ) / (predCount pairs c : ℚ)

/-- Per-class F1, 0 when precision + recall is 0. -/
def f1C (pairs : List (ℚ × ℚ)) (c : ℚ) : ℚ :=
  if precC pairs c + recallC pairs c = 0 then 0
  else 2 * precC pairs c * recallC pairs c / (precC pairs c + recallC pairs c)

/-- `recall_score(targets, preds, average='weighted')`: support-weighted
average of per-class recall. -/
def weightedRecall (pairs : List (ℚ × ℚ)) : ℚ :=
  ((labelsOf pairs).map (fun c => (supp pairs c : ℚ) * recallC pairs c)).sum /
    ((labelsOf pairs).map (fun c => (supp pairs c : ℚ))).sum

/-- `f1_score(targets, preds, average='weighted')`: support-weighted
average of per-class F1. -/
def weightedF1 (pairs : List (ℚ × ℚ)) : ℚ :=
  ((labelsOf pairs).map (fun c => (supp pairs c : ℚ) * f1C pairs c)).sum /
    ((labelsOf pairs).map (fun c => (supp pairs c : ℚ))).sum

/-! ### Batch-level step routines -/

/-- `torch.round`: round to the nearest integer, ties to even. -/
def roundQ (q : ℚ) : ℚ :=
  let f : ℤ := ⌊q⌋
  let r : ℚ := q - (f : ℚ)
  if r < 1/2 then (f : ℚ)
  else if 1/2 < r then ((f + 1 : ℤ) : ℚ)
  else if f % 2 = 0 then (f : ℚ) else ((f + 1 : ℤ) : ℚ)

/-- A batch: aligned (input, target) example pairs, as yielded by the
dataloader (`X` is the list of first components, `y` the second). -/
abbrev BatchT (ι : Type) := List (ι × ℚ)

variable {M ι : Type}

/-- The prediction batch `y_pred = model(X)` for one batch. -/
def batchPreds (forward : M → ι → ℚ) (m : M) (b : BatchT ι) : List ℚ :=
  b.map (fun e => forward m e.1)

/-- The scalar `loss_fn(y_pred, y.unsqueeze(1)).item()` of one batch. -/
def batchLoss (forward : M → ι → ℚ) (lossFn : List ℚ → List ℚ → ℚ)
    (m : M) (b : BatchT ι) : ℚ :=
  lossFn (batchPreds forward m b) (b.map Prod.snd)

/-- The per-batch accuracy
`(y_pred_class == y.unsqueeze(1)).sum().item() / len(y_pred)`:
the fraction of examples whose rounded prediction equals the target. -/
def batchAcc (forward : M → ι → ℚ) (m : M) (b : BatchT ι) : ℚ :=
  ((((batchPreds forward m b).map roundQ).zip (b.map Prod.snd)).countP
      (fun pr => decide (pr.1 = pr.2)) : ℚ) / (b.length : ℚ)

/-- The running state of the batch loop in `train_step` / `test_step`:
the (possibly updated) model, the accumulated loss and accuracy sums, and
the collected `all_preds` / `all_targets` sequences. -/
structure StepAcc (M : Type) where
  model : M
  lossSum : ℚ
  accSum : ℚ
  preds : List ℚ
  targets : List ℚ
deriving Repr

/-- The batch loop of `train_step`.  Per batch: forward pass and loss with
the current model, optimizer update (producing the model used by the next
batch), accuracy of the pre-update predictions, and collection of rounded
predictions and targets.  An empty batch makes the accuracy division
`... / len(y_pred)` raise `ZeroDivisionError`: modelled as `none`. -/
def trainStepGo (forward : M → ι → ℚ) (lossFn : List ℚ → List ℚ → ℚ)
    (optUpdate : M → BatchT ι → M) :
    List (BatchT ι) → StepAcc M → Option (StepAcc M)
  | [], acc => some acc
  | b :: rest, acc =>
    if b.length = 0 then none
    else
      trainStepGo forward lossFn optUpdate rest
        { model := optUpdate acc.model b
          lossSum := acc.lossSum + batchLoss forward lossFn acc.model b
          accSum := acc.accSum + batchAcc forward acc.model b
          preds := acc.preds ++ (batchPreds forward acc.model b).map roundQ
          targets := acc.targets ++ b.map Prod.snd }

/-- `train_step`: one pass over the dataloader, returning the updated
model together with `(train_loss, train_acc, train_recall, train_f1)`.
On an empty dataloader the final `train_loss /= len(dataloader)` raises
`ZeroDivisionError` (and sklearn receives empty sequences): `none`. -/
def train_step (forward : M → ι → ℚ) (lossFn : List ℚ → List ℚ → ℚ)
    (optUpdate : M → BatchT ι → M) (m : M) (dl : List (BatchT ι)) :
    Option (M × ℚ × ℚ × ℚ × ℚ) :=
  (trainStepGo forward lossFn optUpdate dl ⟨m, 0, 0, [], []⟩).bind fun a =>
    if dl.length = 0 then none
    else
      some (a.model, a.lossSum / (dl.length : ℚ), a.accSum / (dl.length : ℚ),
        weightedRecall (a.targets.zip a.preds), weightedF1 (a.targets.zip a.preds))

/-- The batch loop of `test_step`: identical to `trainStepGo` except that
no statement updates the model (the whole loop runs under
`torch.inference_mode()` with no optimizer in scope). -/
def testStepGo (forward : M → ι → ℚ) (lossFn : List ℚ → List ℚ → ℚ) :
    List (BatchT ι) → StepAcc M → Option (StepAcc M)
  | [], acc => some acc
  | b :: rest, acc =>
    if b.length = 0 then none
    else
      testStepGo forward lossFn rest
        { model := acc.model
          lossSum := acc.lossSum + batchLoss forward lossFn acc.model b
          accSum := acc.accSum + batchAcc forward acc.model b
          preds := acc.preds ++ (batchPreds forward acc.model b).map roundQ
          targets := acc.targets ++ b.map Prod.snd }

/-- `test_step`: one pass over the dataloader without parameter updates.
The first component is the model object after the call (state threading
makes the absence of mutation provable); the second is
`some (test_loss, test_acc, test_recall, test_f1)`, or `none` when the
call raises instead of returning. -/
def test_step (forward : M → ι → ℚ) (lossFn : List ℚ → List ℚ → ℚ)
    (m : M) (dl : List (BatchT ι)) : M × Option (ℚ × ℚ × ℚ × ℚ) :=
  match testStepGo forward lossFn dl ⟨m, 0, 0, [], []⟩ with
  | none => (m, none)
  | some a =>
    if dl.length = 0 then (a.model, none)
    else
      (a.model, some (a.lossSum / (dl.length : ℚ), a.accSum / (dl.length : ℚ),
        weightedRecall (a.targets.zip a.preds), weightedF1 (a.targets.zip a.preds)))

/-- Specification-side sequence of (per-batch loss, per-batch accuracy)
scalars along the model trajectory of `train_step`. -/
def trainBatchVals (forward : M → ι → ℚ) (lossFn : List ℚ → List ℚ → ℚ)
    (optUpdate : M → BatchT ι → M) (m : M) : List (BatchT ι) → List (ℚ × ℚ)
  | [] => []
  | b :: rest =>
    (batchLoss forward lossFn m b, batchAcc forward m b) ::
      trainBatchVals forward lossFn optUpdate (optUpdate m b) rest

/-! ### The training loop -/

/-- The four scalars returned by one step routine for one epoch. -/
structure EpochMetrics where
  loss : ℚ
  acc : ℚ
  rcl : ℚ
  f1 : ℚ
deriving Repr, DecidableEq

/-- The `results` dictionary: 8 per-epoch series. -/
structure RunResults where
  train_loss : List ℚ
  train_acc : List ℚ
  train_recall : List ℚ
  train_f1 : List ℚ
  test_loss : List ℚ
  test_acc : List ℚ
  test_recall : List ℚ
  test_f1 : List ℚ
deriving Repr, DecidableEq

/-- The initial `results` dictionary: 8 empty series. -/
def emptyResults : RunResults := ⟨[], [], [], [], [], [], [], []⟩

/-- The eight `results[...].append(...)` statements of one epoch. -/
def appendEpoch (r : RunResults) (tm em : EpochMetrics) : RunResults where
  train_loss := r.train_loss ++ [tm.loss]
  train_acc := r.train_acc ++ [tm.acc]
  train_recall := r.train_recall ++ [tm.rcl]
  train_f1 := r.train_f1 ++ [tm.f1]
  test_loss := r.test_loss ++ [em.loss]
  test_acc := r.test_acc ++ [em.acc]
  test_recall := r.test_recall ++ [em.rcl]
  test_f1 := r.test_f1 ++ [em.f1]

/-- The early-stopping state: `best_loss` (initially `float('inf')`,
modelled as `⊤`) and `patience_counter` (initially 0). -/
structure ESState where
  best : WithTop ℚ
  counter : ℕ
deriving Repr, DecidableEq

/-- One epoch's early-stopping update:
`if test_loss < best_loss: best_loss = test_loss; patience_counter = 0
else: patience_counter += 1`. -/
def esStep (evalLoss : ℚ) (s : ESState) : ESState :=
  if (evalLoss : WithTop ℚ) < s.best then ⟨(evalLoss : WithTop ℚ), 0⟩
  else ⟨s.best, s.counter + 1⟩

/-- One record emitted to the `SummaryWriter`. -/
inductive WriterEvent where
  | addScalars (mainTag : String) (trainVal testVal : ℚ) (globalStep : ℕ)
  | addGraph
  | close
deriving Repr, DecidableEq

/-- The records emitted by the logging step of one (non-stopping) epoch:
four grouped scalar pairs, one model-graph record, one close. -/
def epochEvents (tm em : EpochMetrics) (epoch : ℕ) : List WriterEvent :=
  [.addScalars "Loss" tm.loss em.loss epoch,
   .addScalars "Accuracy" tm.acc em.acc epoch,
   .addScalars "Recall" tm.rcl em.rcl epoch,
   .addScalars "F1-Score" tm.f1 em.f1 epoch,
   .addGraph, .close]

/-- The observable outcome of `train`: the returned `results` dictionary,
the trace of writer records, the number of loop iterations executed, and
whether the `Early stopping triggered` branch ran. -/
structure TrainOutput where
  results : RunResults
  events : List WriterEvent
  epochsRun : ℕ
  earlyStopped : Bool
deriving Repr, DecidableEq

/-- The body of `for epoch in range(epochs)` with the `break`:
per iteration, run both steps (abstracted as `sm epoch`), append the 8
scalars, update the early-stopping state, `break` when
`patience_counter >= patience` (before the logging step), otherwise run
the logging step when both `writer` and `example_input` were supplied. -/
def trainGo (sm : ℕ → EpochMetrics × EpochMetrics) (patience : ℤ)
    (hasWriter hasExample : Bool) :
    ℕ → ℕ → RunResults → ESState → List WriterEvent → TrainOutput
  | 0, epoch, res, _, evs => ⟨res, evs, epoch, false⟩
  | remaining + 1, epoch, res, es, evs =>
    if patience ≤ ((esStep (sm epoch).2.loss es).counter : ℤ) then
      ⟨appendEpoch res (sm epoch).1 (sm epoch).2, evs, epoch + 1, true⟩
    else
      trainGo sm patience hasWriter hasExample remaining (epoch + 1)
        (appendEpoch res (sm epoch).1 (sm epoch).2) (esStep (sm epoch).2.loss es)
        (if hasWriter && hasExample then evs ++ epochEvents (sm epoch).1 (sm epoch).2 epoch
         else evs)

/-- The training loop `train` of `engine_binary.py`, with the per-epoch
step outcomes abstracted as `sm : epoch index → (train metrics, eval
metrics)` and the writer/example-input arguments as booleans. -/
def train (sm : ℕ → EpochMetrics × EpochMetrics) (epochs : ℕ) (patience : ℤ)
    (hasWriter hasExample : Bool) : TrainOutput :=
  trainGo sm patience hasWriter hasExample epochs 0 emptyResults ⟨⊤, 0⟩ []

/-! ### Specification-side notions about the evaluation-loss sequence -/

/-- The per-epoch evaluation loss produced by the step abstraction. -/
def evalLosses (sm : ℕ → EpochMetrics × EpochMetrics) (k : ℕ) : ℚ :=
  (sm k).2.loss

/-- The best (smallest) evaluation loss seen strictly before epoch `k`,
following the update rule of the code (`⊤` before the first epoch). -/
def runningBest (losses : ℕ → ℚ) : ℕ → WithTop ℚ
  | 0 => ⊤
  | k + 1 =>
    if (losses k : WithTop ℚ) < runningBest losses k then (losses k : WithTop ℚ)
    else runningBest losses k

/-- Epoch `k` strictly improves the evaluation loss: its loss is strictly
below every earlier epoch's loss (epoch 0 always improves, since the
best-so-far starts at `+∞`). -/
def improves (losses : ℕ → ℚ) (k : ℕ) : Prop :=
  (losses k : WithTop ℚ) < runningBest losses k

instance (losses : ℕ → ℚ) (k : ℕ) : Decidable (improves losses k) :=
  inferInstanceAs (Decidable ((losses k : WithTop ℚ) < runningBest losses k))

/-- Number of consecutive completed epochs without a strict improvement,
counted just after epoch `k - 1` (0 at the start). -/
def streak (losses : ℕ → ℚ) : ℕ → ℕ
  | 0 => 0
  | k + 1 => if improves losses k then 0 else streak losses k + 1

/-- The early-stopping state machine run on a loss sequence: the state
after `k` completed epochs. -/
def esAfter (losses : ℕ → ℚ) : ℕ → ESState
  | 0 => ⟨⊤, 0⟩
  | k + 1 => esStep (losses k) (esAfter losses k)

/-- Reference recursion for the loop exit: starting at epoch `e` with `r`
iterations left, the pair (number of the epoch after which the loop ends,
whether the early-stop `break` fired). -/
def stopAfter (losses : ℕ → ℚ) (patience : ℤ) : ℕ → ℕ → ℕ × Bool
  | 0, e => (e, false)
  | r + 1, e =>
    if patience ≤ (streak losses (e + 1) : ℤ) then (e + 1, true)
    else stopAfter losses patience r (e + 1)

/-! ### Concrete instances used by the spec's scenarios -/

/-- Eval-loss sequence of the first spec scenario:
`[1.0, 0.9, 0.95, 0.95, 0.95, ...]`. -/
def lossesA (k : ℕ) : ℚ :=
  if k = 0 then 1 else if k = 1 then 9/10 else 19/20

/-- Eval-loss sequence of the second spec scenario: strictly decreasing
every epoch. -/
def lossesB (k : ℕ) : ℚ := -(k : ℚ)

/-- A step abstraction whose eight metric values are all the given
per-epoch loss value (only the eval loss matters for early stopping). -/
def constSM (losses : ℕ → ℚ) (k : ℕ) : EpochMetrics × EpochMetrics :=
  (⟨losses k, losses k, losses k, losses k⟩, ⟨losses k, losses k, losses k, losses k⟩)

/-! ### Lemmas about the early-stopping state machine -/

/-- Epoch 0 always strictly improves: any finite loss beats `+∞`. -/
theorem improves_zero (losses : ℕ → ℚ) : improves losses 0 :=
  WithTop.coe_lt_top (losses 0)

/-- After `k` epochs the tracked best loss is the running best. -/
theorem esAfter_best (losses : ℕ → ℚ) (k : ℕ) :
    (esAfter losses k).best = runningBest losses k := by
  induction k with
  | zero => rfl
  | succ k ih =>
    rw [esAfter, runningBest, esStep, ih]
    by_cases h : (losses k : WithTop ℚ) < runningBest losses k
    · rw [if_pos h, if_pos h]
    · rw [if_neg h, if_neg h]

/-- After `k` epochs the patience counter equals the number of
consecutive completed epochs without a strict improvement. -/
theorem esAfter_counter (losses : ℕ → ℚ) (k : ℕ) :
    (esAfter losses k).counter = streak losses k := by
  induction k with
  | zero => rfl
  | succ k ih =>
    rw [esAfter, streak, esStep, esAfter_best]
    by_cases h : improves losses k
    · rw [if_pos h, if_pos (show (losses k : WithTop ℚ) < runningBest losses k from h)]
    · rw [if_neg h, if_neg (show ¬(losses k : WithTop ℚ) < runningBest losses k from h), ih]

/-- After an improvement at epoch `b` followed by `j` epochs with no
improvement, the non-improvement streak counts those `j` epochs. -/
theorem streak_after_improve {losses : ℕ → ℚ} {b : ℕ} (hb : improves losses b) :
    ∀ j, (∀ i, b < i → i ≤ b + j → ¬ improves losses i) →
      streak losses (b + 1 + j) = j := by
  intro j
  induction j with
  | zero =>
    intro _
    have h1 : streak losses (b + 1 + 0) = if improves losses b then 0 else streak losses b + 1 := rfl
    rw [h1, if_pos hb]
  | succ j ih =>
    intro h
    have hni : ¬ improves losses (b + 1 + j) := h (b + 1 + j) (by omega) (by omega)
    have h1 : streak losses (b + 1 + (j + 1)) =
        if improves losses (b + 1 + j) then 0 else streak losses (b + 1 + j) + 1 := rfl
    rw [h1, if_neg hni, ih (fun i h1 h2 => h i h1 (by omega))]

/-- An improvement at epoch `i` bounds every later streak. -/
theorem streak_le_of_improve {losses : ℕ → ℚ} {i : ℕ} (hi : improves losses i) :
    ∀ k, i ≤ k → streak losses (k + 1) ≤ k - i := by
  intro k
  induction k with
  | zero =>
    intro h
    have h0 : i = 0 := Nat.le_zero.mp h
    subst h0
    rw [streak, if_pos hi]
  | succ k ih =>
    intro h
    rcases Nat.lt_or_ge i (k + 1) with hlt | hge
    · have hik : i ≤ k := Nat.lt_succ_iff.mp hlt
      rw [streak]
      split
      · exact Nat.zero_le _
      · have := ih hik
        omega
    · have h1 : i = k + 1 := le_antisymm h hge
      subst h1
      rw [streak, if_pos hi]
      omega

/-- If the streak first reaches the patience threshold after epoch `t`,
the loop-exit recursion ends at `(t + 1, true)`. -/
theorem stopAfter_eq_of_first {losses : ℕ → ℚ} {p : ℤ} :
    ∀ (r e t : ℕ), e ≤ t → t + 1 ≤ e + r →
      (∀ k, e ≤ k → k < t → ¬ p ≤ (streak losses (k + 1) : ℤ)) →
      p ≤ (streak losses (t + 1) : ℤ) →
      stopAfter losses p r e = (t + 1, true) := by
  intro r
  induction r with
  | zero => intro e t h1 h2 _ _; omega
  | succ r ih =>
    intro e t h1 h2 hno hyes
    rw [stopAfter]
    rcases Nat.eq_or_lt_of_le h1 with h0 | hlt
    · subst h0
      rw [if_pos hyes]
    · rw [if_neg (hno e le_rfl hlt)]
      exact ih (e + 1) t hlt (by omega) (fun k hk1 hk2 => hno k (by omega) hk2) hyes

/-- If the streak never reaches the patience threshold, the loop-exit
recursion runs out its iteration budget with no early stop. -/
theorem stopAfter_eq_of_none {losses : ℕ → ℚ} {p : ℤ} :
    ∀ (r e : ℕ), (∀ k, e ≤ k → k < e + r → ¬ p ≤ (streak losses (k + 1) : ℤ)) →
      stopAfter losses p r e = (e + r, false) := by
  intro r
  induction r with
  | zero => intro e _; rfl
  | succ r ih =>
    intro e h
    rw [stopAfter, if_neg (h e le_rfl (by omega))]
    rw [ih (e + 1) (fun k hk1 hk2 => h k (by omega) (by omega))]
    rw [show e + 1 + r = e + (r + 1) by omega]

/-! ### Characterization of the training loop -/

/-- Fieldwise concatenation of two results dictionaries. -/
def appendResults (r s : RunResults) : RunResults where
  train_loss := r.train_loss ++ s.train_loss
  train_acc := r.train_acc ++ s.train_acc
  train_recall := r.train_recall ++ s.train_recall
  train_f1 := r.train_f1 ++ s.train_f1
  test_loss := r.test_loss ++ s.test_loss
  test_acc := r.test_acc ++ s.test_acc
  test_recall := r.test_recall ++ s.test_recall
  test_f1 := r.test_f1 ++ s.test_f1

/-- The eight per-epoch series contributed by epochs `e, …, e + n - 1`. -/
def seriesFrom (sm : ℕ → EpochMetrics × EpochMetrics) (e n : ℕ) : RunResults where
  train_loss := (List.range' e n).map fun k => (sm k).1.loss
  train_acc := (List.range' e n).map fun k => (sm k).1.acc
  train_recall := (List.range' e n).map fun k => (sm k).1.rcl
  train_f1 := (List.range' e n).map fun k => (sm k).1.f1
  test_loss := (List.range' e n).map fun k => (sm k).2.loss
  test_acc := (List.range' e n).map fun k => (sm k).2.acc
  test_recall := (List.range' e n).map fun k => (sm k).2.rcl
  test_f1 := (List.range' e n).map fun k => (sm k).2.f1

theorem appendResults_seriesFrom_zero (res : RunResults)
    (sm : ℕ → EpochMetrics × EpochMetrics) (e : ℕ) :
    appendResults res (seriesFrom sm e 0) = res := by
  cases res
  simp [appendResults, seriesFrom]

theorem appendEpoch_eq_seriesFrom_one (res : RunResults)
    (sm : ℕ → EpochMetrics × EpochMetrics) (e : ℕ) :
    appendEpoch res (sm e).1 (sm e).2 = appendResults res (seriesFrom sm e 1) := by
  cases res
  simp [appendEpoch, appendResults, seriesFrom]

theorem appendResults_seriesFrom_succ (res : RunResults)
    (sm : ℕ → EpochMetrics × EpochMetrics) (e n : ℕ) :
    appendResults (appendEpoch res (sm e).1 (sm e).2) (seriesFrom sm (e + 1) n) =
      appendResults res (seriesFrom sm e (n + 1)) := by
  cases res
  simp [appendEpoch, appendResults, seriesFrom, List.range'_succ]

/-- Loop characterization: iteration count and early-stop flag are those
of the loss-sequence recursion `stopAfter` (the loop's early-stopping
state being the state machine `esAfter` run on the eval losses). -/
theorem trainGo_run (sm : ℕ → EpochMetrics × EpochMetrics) (p : ℤ) (hw he : Bool) :
    ∀ (r e : ℕ) (res : RunResults) (evs : List WriterEvent),
    ((trainGo sm p hw he r e res (esAfter (evalLosses sm) e) evs).epochsRun,
      (trainGo sm p hw he r e res (esAfter (evalLosses sm) e) evs).earlyStopped) =
      stopAfter (evalLosses sm) p r e := by
  intro r
  induction r with
  | zero => intro e res evs; rfl
  | succ r ih =>
    intro e res evs
    have hcnt : (esStep (sm e).2.loss (esAfter (evalLosses sm) e)).counter =
        streak (evalLosses sm) (e + 1) := esAfter_counter (evalLosses sm) (e + 1)
    rw [trainGo, stopAfter, hcnt]
    by_cases hc : p ≤ (streak (evalLosses sm) (e + 1) : ℤ)
    · rw [if_pos hc, if_pos hc]
    · rw [if_neg hc, if_neg hc]
      exact ih (e + 1) (appendEpoch res (sm e).1 (sm e).2) _

/-- Loop characterization: the returned results dictionary is the input
dictionary extended with one entry per executed epoch in each series. -/
theorem trainGo_results (sm : ℕ → EpochMetrics × EpochMetrics) (p : ℤ) (hw he : Bool) :
    ∀ (r e : ℕ) (res : RunResults) (es : ESState) (evs : List WriterEvent),
    ∃ n, (trainGo sm p hw he r e res es evs).epochsRun = e + n ∧
      (trainGo sm p hw he r e res es evs).results = appendResults res (seriesFrom sm e n) := by
  intro r
  induction r with
  | zero =>
    intro e res es evs
    exact ⟨0, rfl, (appendResults_seriesFrom_zero res sm e).symm⟩
  | succ r ih =>
    intro e res es evs
    rw [trainGo]
    by_cases hc : p ≤ ((esStep (sm e).2.loss es).counter : ℤ)
    · rw [if_pos hc]
      exact ⟨1, rfl, appendEpoch_eq_seriesFrom_one res sm e⟩
    · rw [if_neg hc]
      obtain ⟨n, h1, h2⟩ := ih (e + 1) (appendEpoch res (sm e).1 (sm e).2)
        (esStep (sm e).2.loss es)
        (if hw && he then evs ++ epochEvents (sm e).1 (sm e).2 e else evs)
      refine ⟨n + 1, by omega, ?_⟩
      rw [h2, appendResults_seriesFrom_succ]

/-- Loop characterization: with no writer or no example input supplied,
the loop emits nothing. -/
theorem trainGo_events_none (sm : ℕ → EpochMetrics × EpochMetrics) (p : ℤ) (hw he : Bool)
    (hb : (hw && he) = false) :
    ∀ (r e : ℕ) (res : RunResults) (es : ESState) (evs : List WriterEvent),
    (trainGo sm p hw he r e res es evs).events = evs := by
  intro r
  induction r with
  | zero => intro e res es evs; rfl
  | succ r ih =>
    intro e res es evs
    rw [trainGo]
    by_cases hc : p ≤ ((esStep (sm e).2.loss es).counter : ℤ)
    · rw [if_pos hc]
    · rw [if_neg hc, if_neg (by simp [hb] : ¬((hw && he) = true))]
      exact ih (e + 1) _ _ _

/-- Loop characterization: with a writer and an example input supplied,
the emitted trace consists of the six logging records of every executed
epoch except an early-stop epoch (whose logging step is never reached). -/
theorem trainGo_events_some (sm : ℕ → EpochMetrics × EpochMetrics) (p : ℤ) (hw he : Bool)
    (hb : (hw && he) = true) :
    ∀ (r e : ℕ) (res : RunResults) (es : ESState) (evs : List WriterEvent),
    ∃ n, (trainGo sm p hw he r e res es evs).epochsRun = e + n ∧
      ((trainGo sm p hw he r e res es evs).earlyStopped = true → 1 ≤ n) ∧
      (trainGo sm p hw he r e res es evs).events = evs ++
        (List.range' e
            (n - (if (trainGo sm p hw he r e res es evs).earlyStopped then 1 else 0))).flatMap
          (fun k => epochEvents (sm k).1 (sm k).2 k) := by
  intro r
  induction r with
  | zero =>
    intro e res es evs
    exact ⟨0, rfl, by simp [trainGo], by simp [trainGo]⟩
  | succ r ih =>
    intro e res es evs
    rw [trainGo]
    by_cases hc : p ≤ ((esStep (sm e).2.loss es).counter : ℤ)
    · rw [if_pos hc]
      exact ⟨1, rfl, fun _ => le_rfl, by simp⟩
    · rw [if_neg hc, if_pos hb]
      obtain ⟨n, h1, h2, h3⟩ := ih (e + 1) (appendEpoch res (sm e).1 (sm e).2)
        (esStep (sm e).2.loss es) (evs ++ epochEvents (sm e).1 (sm e).2 e)
      refine ⟨n + 1, by omega, fun _ => by omega, ?_⟩
      have hχ : n + 1 -
          (if (trainGo sm p hw he r (e + 1) (appendEpoch res (sm e).1 (sm e).2)
              (esStep (sm e).2.loss es)
              (evs ++ epochEvents (sm e).1 (sm e).2 e)).earlyStopped then 1 else 0) =
          (n - (if (trainGo sm p hw he r (e + 1) (appendEpoch res (sm e).1 (sm e).2)
              (esStep (sm e).2.loss es)
              (evs ++ epochEvents (sm e).1 (sm e).2 e)).earlyStopped then 1 else 0)) + 1 := by
        by_cases hs : (trainGo sm p hw he r (e + 1) (appendEpoch res (sm e).1 (sm e).2)
            (esStep (sm e).2.loss es)
            (evs ++ epochEvents (sm e).1 (sm e).2 e)).earlyStopped = true
        · rw [if_pos hs]
          have := h2 hs
          omega
        · rw [if_neg hs]
          omega
      rw [hχ, List.range'_succ, List.flatMap_cons, ← List.append_assoc]
      exact h3

/-- The run length and early-stop flag of `train` are those of the
loss-sequence recursion `stopAfter`. -/
theorem train_run (sm : ℕ → EpochMetrics × EpochMetrics) (epochs : ℕ) (p : ℤ)
    (hw he : Bool) :
    ((train sm epochs p hw he).epochsRun, (train sm epochs p hw he).earlyStopped) =
      stopAfter (evalLosses sm) p epochs 0 :=
  trainGo_run sm p hw he epochs 0 emptyResults []

/-! ### Claim theorems: the training loop -/

/-- **C1**: if the eval-loss sequence last strictly improves at epoch `b`
(0-indexed; so `bestEpoch = b + 1` in the spec's 1-indexed counting),
then fails to improve for the next `patience` epochs, with earlier
improvements never more than `patience` apart and `b + patience + 1 ≤
maxEpochs`, the loop stops after exactly `(b + 1) + patience` epochs;
when the patience counter never reaches `patience`, the loop runs exactly
`maxEpochs` epochs with no early stop.  In particular the two spec
scenarios: maxEpochs 10, patience 3, losses `[1.0, 0.9, 0.95, 0.95,
0.95, …]` runs 5 epochs and stops early; patience 5, maxEpochs 3,
strictly decreasing losses runs all 3 epochs, no early stop. -/
theorem train_early_stopping_count (sm : ℕ → EpochMetrics × EpochMetrics)
    (epochs pat b : ℕ) (hw he : Bool) :
    (1 ≤ pat → improves (evalLosses sm) b →
      (∀ i, b < i → i ≤ b + pat → ¬ improves (evalLosses sm) i) →
      (∀ k, k < b → ∃ i, i ≤ k ∧ improves (evalLosses sm) i ∧ k < i + pat) →
      b + pat + 1 ≤ epochs →
      (train sm epochs (pat : ℤ) hw he).epochsRun = (b + 1) + pat ∧
        (train sm epochs (pat : ℤ) hw he).earlyStopped = true) ∧
    ((∀ k, k < epochs → streak (evalLosses sm) (k + 1) < pat) →
      (train sm epochs (pat : ℤ) hw he).epochsRun = epochs ∧
        (train sm epochs (pat : ℤ) hw he).earlyStopped = false) ∧
    ((train (constSM lossesA) 10 3 false false).epochsRun = 5 ∧
      (train (constSM lossesA) 10 3 false false).earlyStopped = true) ∧
    ((train (constSM lossesB) 3 5 false false).epochsRun = 3 ∧
      (train (constSM lossesB) 3 5 false false).earlyStopped = false) := by
  refine ⟨?_, ?_, ?_, ?_⟩
  · intro hpat himp hafter hbefore hfit
    have hno : ∀ k, 0 ≤ k → k < b + pat →
        ¬ (pat : ℤ) ≤ (streak (evalLosses sm) (k + 1) : ℤ) := by
      intro k _ hk
      rcases Nat.lt_or_ge k b with hkb | hbk
      · obtain ⟨i, hik, hiimp, hkpat⟩ := hbefore k hkb
        have hle := streak_le_of_improve hiimp k hik
        intro hcon
        omega
      · have hj : streak (evalLosses sm) (b + 1 + (k - b)) = k - b := by
          apply streak_after_improve himp
          intro i h1 h2
          exact hafter i h1 (by omega)
        rw [show k + 1 = b + 1 + (k - b) by omega]
        intro hcon
        rw [hj] at hcon
        omega
    have hyes : (pat : ℤ) ≤ (streak (evalLosses sm) (b + pat + 1) : ℤ) := by
      have hj : streak (evalLosses sm) (b + 1 + pat) = pat :=
        streak_after_improve himp pat (fun i h1 h2 => hafter i h1 h2)
      rw [show b + pat + 1 = b + 1 + pat by omega, hj]
    have hstop := stopAfter_eq_of_first epochs 0 (b + pat) (Nat.zero_le _) (by omega)
      (fun k hk1 hk2 => hno k hk1 hk2) hyes
    have hrun := train_run sm epochs (pat : ℤ) hw he
    rw [hstop] at hrun
    have e1 : (train sm epochs (pat : ℤ) hw he).epochsRun = b + pat + 1 :=
      congrArg Prod.fst hrun
    have e2 : (train sm epochs (pat : ℤ) hw he).earlyStopped = true :=
      congrArg Prod.snd hrun
    exact ⟨by omega, e2⟩
  · intro hlt
    have hstop : stopAfter (evalLosses sm) (pat : ℤ) epochs 0 = (0 + epochs, false) :=
      stopAfter_eq_of_none epochs 0 (fun k hk1 hk2 => by
        have := hlt k (by omega)
        omega)
    have hrun := train_run sm epochs (pat : ℤ) hw he
    rw [hstop] at hrun
    have e1 : (train sm epochs (pat : ℤ) hw he).epochsRun = 0 + epochs :=
      congrArg Prod.fst hrun
    have e2 : (train sm epochs (pat : ℤ) hw he).earlyStopped = false :=
      congrArg Prod.snd hrun
    exact ⟨by omega, e2⟩
  · exact ⟨by with_unfolding_all decide, by with_unfolding_all decide⟩
  · exact ⟨by with_unfolding_all decide, by with_unfolding_all decide⟩

theorem train_early_stopping_count_witness :
    (train (constSM lossesA) 10 ((3 : ℕ) : ℤ) false false).epochsRun = (1 + 1) + 3 ∧
      (train (constSM lossesA) 10 ((3 : ℕ) : ℤ) false false).earlyStopped = true :=
  (train_early_stopping_count (constSM lossesA) 10 3 1 false false).1
    (by norm_num)
    (by with_unfolding_all decide)
    (by intro i h1 h2; interval_cases i <;> with_unfolding_all decide)
    (by
      intro k hk
      interval_cases k
      exact ⟨0, le_rfl, by with_unfolding_all decide, by omega⟩)
    (by norm_num)

/-- **C10**: with `patience ≤ 0` and at least one epoch requested, the
loop always stops after exactly one epoch (the exit test
`patience_counter >= patience` holds even after a reset to 0). -/
theorem train_nonpositive_patience (sm : ℕ → EpochMetrics × EpochMetrics)
    (epochs : ℕ) (p : ℤ) (hw he : Bool) (hp : p ≤ 0) (h1 : 1 ≤ epochs) :
    (train sm epochs p hw he).epochsRun = 1 ∧
      (train sm epochs p hw he).earlyStopped = true := by
  have hyes : p ≤ (streak (evalLosses sm) 1 : ℤ) := by
    have := Int.natCast_nonneg (streak (evalLosses sm) 1)
    omega
  have hstop := stopAfter_eq_of_first epochs 0 0 le_rfl (by omega)
    (fun k hk1 hk2 => absurd hk2 (by omega)) hyes
  have hrun := train_run sm epochs p hw he
  rw [hstop] at hrun
  exact ⟨congrArg Prod.fst hrun, congrArg Prod.snd hrun⟩

theorem train_nonpositive_patience_witness :
    (train (constSM lossesB) 1 0 false false).epochsRun = 1 ∧
      (train (constSM lossesB) 1 0 false false).earlyStopped = true :=
  train_nonpositive_patience (constSM lossesB) 1 0 false false (by norm_num) (by norm_num)

/-- **C2**: the early-stopping state starts at `(+∞, 0)`; each epoch
either strictly improves (best updated, counter reset to 0) or not
(counter incremented); hence the counter always equals the number of
consecutive completed epochs without a strict improvement, and the loop
exits immediately after the first epoch whose updated counter reaches
the patience threshold. -/
theorem earlystop_state_invariant (sm : ℕ → EpochMetrics × EpochMetrics)
    (epochs : ℕ) (p : ℤ) (hw he : Bool) (k : ℕ) :
    esAfter (evalLosses sm) 0 = ⟨⊤, 0⟩ ∧
    ((evalLosses sm k : WithTop ℚ) < (esAfter (evalLosses sm) k).best →
      esAfter (evalLosses sm) (k + 1) = ⟨(evalLosses sm k : WithTop ℚ), 0⟩) ∧
    (¬ (evalLosses sm k : WithTop ℚ) < (esAfter (evalLosses sm) k).best →
      esAfter (evalLosses sm) (k + 1) =
        ⟨(esAfter (evalLosses sm) k).best, (esAfter (evalLosses sm) k).counter + 1⟩) ∧
    (esAfter (evalLosses sm) k).counter = streak (evalLosses sm) k ∧
    (k < epochs → (∀ j, j < k → ¬ p ≤ (streak (evalLosses sm) (j + 1) : ℤ)) →
      p ≤ (streak (evalLosses sm) (k + 1) : ℤ) →
      (train sm epochs p hw he).epochsRun = k + 1 ∧
        (train sm epochs p hw he).earlyStopped = true) := by
  refine ⟨rfl, ?_, ?_, esAfter_counter (evalLosses sm) k, ?_⟩
  · intro h
    show esStep (evalLosses sm k) (esAfter (evalLosses sm) k) = _
    rw [esStep, if_pos h]
  · intro h
    show esStep (evalLosses sm k) (esAfter (evalLosses sm) k) = _
    rw [esStep, if_neg h]
  · intro hk hno hyes
    have hstop := stopAfter_eq_of_first epochs 0 k (Nat.zero_le _) (by omega)
      (fun j hj1 hj2 => hno j hj2) hyes
    have hrun := train_run sm epochs p hw he
    rw [hstop] at hrun
    exact ⟨congrArg Prod.fst hrun, congrArg Prod.snd hrun⟩

theorem earlystop_state_invariant_witness :
    esAfter (evalLosses (constSM lossesA)) (1 + 1) = ⟨((9 : ℚ)/10 : ℚ), 0⟩ ∧
    esAfter (evalLosses (constSM lossesA)) (2 + 1) =
      ⟨(esAfter (evalLosses (constSM lossesA)) 2).best,
        (esAfter (evalLosses (constSM lossesA)) 2).counter + 1⟩ ∧
    (esAfter (evalLosses (constSM lossesA)) 4).counter =
      streak (evalLosses (constSM lossesA)) 4 ∧
    ((train (constSM lossesA) 10 3 false false).epochsRun = 4 + 1 ∧
      (train (constSM lossesA) 10 3 false false).earlyStopped = true) := by
  refine ⟨?_, ?_, ?_, ?_⟩
  · have h := (earlystop_state_invariant (constSM lossesA) 10 3 false false 1).2.1
      (by with_unfolding_all decide)
    rw [h]
    with_unfolding_all rfl
  · exact (earlystop_state_invariant (constSM lossesA) 10 3 false false 2).2.2.1
      (by with_unfolding_all decide)
  · exact (earlystop_state_invariant (constSM lossesA) 10 3 false false 4).2.2.2.1
  · exact (earlystop_state_invariant (constSM lossesA) 10 3 false false 4).2.2.2.2
      (by norm_num)
      (by intro j hj; interval_cases j <;> with_unfolding_all decide)
      (by with_unfolding_all decide)

/-- **C6**: after every run, all 8 series of the returned results
dictionary (train/test × loss, acc, recall, f1 — the 8 fields of
`RunResults`) have length equal to the number of epochs executed,
whether the loop stopped early or ran to `maxEpochs`. -/
theorem train_results_lengths (sm : ℕ → EpochMetrics × EpochMetrics)
    (epochs : ℕ) (p : ℤ) (hw he : Bool) :
    (train sm epochs p hw he).results.train_loss.length =
        (train sm epochs p hw he).epochsRun ∧
    (train sm epochs p hw he).results.train_acc.length =
        (train sm epochs p hw he).epochsRun ∧
    (train sm epochs p hw he).results.train_recall.length =
        (train sm epochs p hw he).epochsRun ∧
    (train sm epochs p hw he).results.train_f1.length =
        (train sm epochs p hw he).epochsRun ∧
    (train sm epochs p hw he).results.test_loss.length =
        (train sm epochs p hw he).epochsRun ∧
    (train sm epochs p hw he).results.test_acc.length =
        (train sm epochs p hw he).epochsRun ∧
    (train sm epochs p hw he).results.test_recall.length =
        (train sm epochs p hw he).epochsRun ∧
    (train sm epochs p hw he).results.test_f1.length =
        (train sm epochs p hw he).epochsRun := by
  rw [train]
  obtain ⟨n, h1, h2⟩ := trainGo_results sm p hw he epochs 0 emptyResults ⟨⊤, 0⟩ []
  rw [h2, h1]
  refine ⟨?_, ?_, ?_, ?_, ?_, ?_, ?_, ?_⟩ <;>
    simp [appendResults, seriesFrom, emptyResults]

/-- **C3**: whenever early stopping fires, the triggering epoch's eight
metric values are present at the last index of the returned series, yet
the writer trace (with writer and example input supplied) consists of
the records of the earlier epochs only — logging is skipped for the
epoch that triggered the stop. -/
theorem earlystop_epoch_unlogged (sm : ℕ → EpochMetrics × EpochMetrics)
    (epochs : ℕ) (p : ℤ) (out : TrainOutput)
    (hout : out = train sm epochs p true true)
    (h : out.earlyStopped = true) :
    (out.results.train_loss[out.epochsRun - 1]? =
        some ((sm (out.epochsRun - 1)).1.loss) ∧
      out.results.train_acc[out.epochsRun - 1]? =
        some ((sm (out.epochsRun - 1)).1.acc) ∧
      out.results.train_recall[out.epochsRun - 1]? =
        some ((sm (out.epochsRun - 1)).1.rcl) ∧
      out.results.train_f1[out.epochsRun - 1]? =
        some ((sm (out.epochsRun - 1)).1.f1) ∧
      out.results.test_loss[out.epochsRun - 1]? =
        some ((sm (out.epochsRun - 1)).2.loss) ∧
      out.results.test_acc[out.epochsRun - 1]? =
        some ((sm (out.epochsRun - 1)).2.acc) ∧
      out.results.test_recall[out.epochsRun - 1]? =
        some ((sm (out.epochsRun - 1)).2.rcl) ∧
      out.results.test_f1[out.epochsRun - 1]? =
        some ((sm (out.epochsRun - 1)).2.f1)) ∧
    out.events = (List.range' 0 (out.epochsRun - 1)).flatMap
      (fun k => epochEvents (sm k).1 (sm k).2 k) := by
  subst hout
  rw [train] at h ⊢
  obtain ⟨n, h1, h2⟩ := trainGo_results sm p true true epochs 0 emptyResults ⟨⊤, 0⟩ []
  obtain ⟨n2, h1e, h2e, h3e⟩ :=
    trainGo_events_some sm p true true rfl epochs 0 emptyResults ⟨⊤, 0⟩ []
  have hn : (trainGo sm p true true epochs 0 emptyResults ⟨⊤, 0⟩ []).epochsRun = n := by
    omega
  have hn2 : n2 = n := by omega
  rw [hn2] at h1e h2e h3e
  have hpos : 1 ≤ n := h2e h
  have hlt : n - 1 < n := by omega
  constructor
  · rw [h2, hn]
    refine ⟨?_, ?_, ?_, ?_, ?_, ?_, ?_, ?_⟩ <;>
      simp [appendResults, seriesFrom, emptyResults, List.getElem?_map,
        List.getElem?_range' 0 1 hlt]
  · rw [if_pos h] at h3e
    rw [h3e, hn]
    simp

/-- **C8**: in every epoch whose logging step is reached, records are
emitted precisely when both a writer and an example input were supplied:
per such epoch the four grouped scalar pairs (Loss, Accuracy, Recall,
F1-Score, each pairing the train and test value at the epoch index), a
model-graph record and a close of the sink; otherwise nothing at all. -/
theorem train_logging_iff (sm : ℕ → EpochMetrics × EpochMetrics)
    (epochs : ℕ) (p : ℤ) (hw he : Bool) :
    (train sm epochs p hw he).events =
      if hw && he then
        (List.range' 0 ((train sm epochs p hw he).epochsRun -
            (if (train sm epochs p hw he).earlyStopped then 1 else 0))).flatMap
          (fun k => epochEvents (sm k).1 (sm k).2 k)
      else [] := by
  rw [train]
  by_cases hb : (hw && he) = true
  · rw [if_pos hb]
    obtain ⟨n, h1, h2, h3⟩ :=
      trainGo_events_some sm p hw he hb epochs 0 emptyResults ⟨⊤, 0⟩ []
    have hn : (trainGo sm p hw he epochs 0 emptyResults ⟨⊤, 0⟩ []).epochsRun = n := by
      omega
    rw [h3, hn]
    simp
  · rw [if_neg hb]
    exact trainGo_events_none sm p hw he (by simpa using hb) epochs 0 emptyResults ⟨⊤, 0⟩ []

theorem earlystop_epoch_unlogged_witness :
    ((train (constSM lossesA) 10 3 true true).results.train_loss[
        (train (constSM lossesA) 10 3 true true).epochsRun - 1]? =
      some ((constSM lossesA ((train (constSM lossesA) 10 3 true true).epochsRun - 1)).1.loss) ∧
      (train (constSM lossesA) 10 3 true true).results.train_acc[
        (train (constSM lossesA) 10 3 true true).epochsRun - 1]? =
      some ((constSM lossesA ((train (constSM lossesA) 10 3 true true).epochsRun - 1)).1.acc) ∧
      (train (constSM lossesA) 10 3 true true).results.train_recall[
        (train (constSM lossesA) 10 3 true true).epochsRun - 1]? =
      some ((constSM lossesA ((train (constSM lossesA) 10 3 true true).epochsRun - 1)).1.rcl) ∧
      (train (constSM lossesA) 10 3 true true).results.train_f1[
        (train (constSM lossesA) 10 3 true true).epochsRun - 1]? =
      some ((constSM lossesA ((train (constSM lossesA) 10 3 true true).epochsRun - 1)).1.f1) ∧
      (train (constSM lossesA) 10 3 true true).results.test_loss[
        (train (constSM lossesA) 10 3 true true).epochsRun - 1]? =
      some ((constSM lossesA ((train (constSM lossesA) 10 3 true true).epochsRun - 1)).2.loss) ∧
      (train (constSM lossesA) 10 3 true true).results.test_acc[
        (train (constSM lossesA) 10 3 true true).epochsRun - 1]? =
      some ((constSM lossesA ((train (constSM lossesA) 10 3 true true).epochsRun - 1)).2.acc) ∧
      (train (constSM lossesA) 10 3 true true).results.test_recall[
        (train (constSM lossesA) 10 3 true true).epochsRun - 1]? =
      some ((constSM lossesA ((train (constSM lossesA) 10 3 true true).epochsRun - 1)).2.rcl) ∧
      (train (constSM lossesA) 10 3 true true).results.test_f1[
        (train (constSM lossesA) 10 3 true true).epochsRun - 1]? =
      some ((constSM lossesA ((train (constSM lossesA) 10 3 true true).epochsRun - 1)).2.f1)) ∧
    (train (constSM lossesA) 10 3 true true).events =
      (List.range' 0 ((train (constSM lossesA) 10 3 true true).epochsRun - 1)).flatMap
        (fun k => epochEvents (constSM lossesA k).1 (constSM lossesA k).2 k) :=
  earlystop_epoch_unlogged (constSM lossesA) 10 3 _ rfl (by with_unfolding_all decide)

/-! ### Lemmas about the sklearn metric model -/

theorem truePos_le_supp (pairs : List (ℚ × ℚ)) (c : ℚ) :
    truePos pairs c ≤ supp pairs c := by
  apply List.countP_mono_left
  intro x hx hpx
  simp only [decide_eq_true_eq] at hpx ⊢
  exact hpx.1

theorem truePos_le_predCount (pairs : List (ℚ × ℚ)) (c : ℚ) :
    truePos pairs c ≤ predCount pairs c := by
  apply List.countP_mono_left
  intro x hx hpx
  simp only [decide_eq_true_eq] at hpx ⊢
  exact hpx.2

theorem recallC_nonneg (pairs : List (ℚ × ℚ)) (c : ℚ) : 0 ≤ recallC pairs c := by
  unfold recallC
  split
  · exact le_refl 0
  · exact div_nonneg (Nat.cast_nonneg _) (Nat.cast_nonneg _)

theorem recallC_le_one (pairs : List (ℚ × ℚ)) (c : ℚ) : recallC pairs c ≤ 1 := by
  unfold recallC
  split
  · norm_num
  · exact div_le_one_of_le₀ (by exact_mod_cast truePos_le_supp pairs c) (Nat.cast_nonneg _)

theorem precC_nonneg (pairs : List (ℚ × ℚ)) (c : ℚ) : 0 ≤ precC pairs c := by
  unfold precC
  split
  · exact le_refl 0
  · exact div_nonneg (Nat.cast_nonneg _) (Nat.cast_nonneg _)

theorem precC_le_one (pairs : List (ℚ × ℚ)) (c : ℚ) : precC pairs c ≤ 1 := by
  unfold precC
  split
  · norm_num
  · exact div_le_one_of_le₀ (by exact_mod_cast truePos_le_predCount pairs c) (Nat.cast_nonneg _)

theorem f1C_nonneg (pairs : List (ℚ × ℚ)) (c : ℚ) : 0 ≤ f1C pairs c := by
  unfold f1C
  by_cases h : precC pairs c + recallC pairs c = 0
  · rw [if_pos h]
  · rw [if_neg h]
    have h1 := precC_nonneg pairs c
    have h2 := recallC_nonneg pairs c
    exact div_nonneg (by positivity) (by linarith)

theorem f1C_le_one (pairs : List (ℚ × ℚ)) (c : ℚ) : f1C pairs c ≤ 1 := by
  unfold f1C
  by_cases h : precC pairs c + recallC pairs c = 0
  · rw [if_pos h]; norm_num
  · rw [if_neg h]
    have h1 := precC_nonneg pairs c
    have h2 := recallC_nonneg pairs c
    have h3 := precC_le_one pairs c
    have h4 := recallC_le_one pairs c
    have hsum : 0 < precC pairs c + recallC pairs c := by
      rcases lt_or_eq_of_le (by linarith : (0:ℚ) ≤ precC pairs c + recallC pairs c) with hlt | heq
      · exact hlt
      · exact absurd heq.symm h
    rw [div_le_one hsum]
    nlinarith

/-- A support-weighted average of per-class scores in `[0,1]` is itself
in `[0,1]` (with the `0/0 = 0` convention for an empty label set). -/
theorem weightedAvg_mem (pairs : List (ℚ × ℚ)) (score : ℚ → ℚ)
    (h0 : ∀ c, 0 ≤ score c) (h1 : ∀ c, score c ≤ 1) :
    0 ≤ ((labelsOf pairs).map (fun c => (supp pairs c : ℚ) * score c)).sum /
        ((labelsOf pairs).map (fun c => (supp pairs c : ℚ))).sum ∧
      ((labelsOf pairs).map (fun c => (supp pairs c : ℚ) * score c)).sum /
        ((labelsOf pairs).map (fun c => (supp pairs c : ℚ))).sum ≤ 1 := by
  have hnum0 : 0 ≤ ((labelsOf pairs).map (fun c => (supp pairs c : ℚ) * score c)).sum := by
    apply List.sum_nonneg
    intro x hx
    obtain ⟨c, hc, rfl⟩ := List.mem_map.mp hx
    exact mul_nonneg (Nat.cast_nonneg _) (h0 c)
  have hden0 : 0 ≤ ((labelsOf pairs).map (fun c => (supp pairs c : ℚ))).sum := by
    apply List.sum_nonneg
    intro x hx
    obtain ⟨c, hc, rfl⟩ := List.mem_map.mp hx
    exact Nat.cast_nonneg _
  have hle : ((labelsOf pairs).map (fun c => (supp pairs c : ℚ) * score c)).sum ≤
      ((labelsOf pairs).map (fun c => (supp pairs c : ℚ))).sum :=
    List.sum_le_sum (fun c hc => mul_le_of_le_one_right (Nat.cast_nonneg _) (h1 c))
  constructor
  · exact div_nonneg hnum0 hden0
  · by_cases hd : ((labelsOf pairs).map (fun c => (supp pairs c : ℚ))).sum = 0
    · have hz : ((labelsOf pairs).map (fun c => (supp pairs c : ℚ) * score c)).sum = 0 :=
        le_antisymm (hd ▸ hle) hnum0
      rw [hz, hd]
      norm_num
    · rw [div_le_one (lt_of_le_of_ne hden0 (Ne.symm hd))]
      exact hle

theorem weightedRecall_nonneg (pairs : List (ℚ × ℚ)) : 0 ≤ weightedRecall pairs :=
  (weightedAvg_mem pairs (recallC pairs) (recallC_nonneg pairs) (recallC_le_one pairs)).1

theorem weightedRecall_le_one (pairs : List (ℚ × ℚ)) : weightedRecall pairs ≤ 1 :=
  (weightedAvg_mem pairs (recallC pairs) (recallC_nonneg pairs) (recallC_le_one pairs)).2

theorem weightedF1_nonneg (pairs : List (ℚ × ℚ)) : 0 ≤ weightedF1 pairs :=
  (weightedAvg_mem pairs (f1C pairs) (f1C_nonneg pairs) (f1C_le_one pairs)).1

theorem weightedF1_le_one (pairs : List (ℚ × ℚ)) : weightedF1 pairs ≤ 1 :=
  (weightedAvg_mem pairs (f1C pairs) (f1C_nonneg pairs) (f1C_le_one pairs)).2

/-! ### Lemmas about the step routines -/

theorem batchAcc_nonneg (forward : M → ι → ℚ) (m : M) (b : BatchT ι) :
    0 ≤ batchAcc forward m b := by
  unfold batchAcc
  exact div_nonneg (Nat.cast_nonneg _) (Nat.cast_nonneg _)

theorem batchAcc_le_one (forward : M → ι → ℚ) (m : M) (b : BatchT ι) :
    batchAcc forward m b ≤ 1 := by
  unfold batchAcc
  have hle : ((((batchPreds forward m b).map roundQ).zip (b.map Prod.snd)).countP
      (fun pr => decide (pr.1 = pr.2))) ≤ b.length := by
    calc ((((batchPreds forward m b).map roundQ).zip (b.map Prod.snd)).countP
          (fun pr => decide (pr.1 = pr.2)))
        ≤ ((((batchPreds forward m b).map roundQ).zip (b.map Prod.snd))).length :=
          List.countP_le_length _
      _ ≤ b.length := by simp [batchPreds]
  exact div_le_one_of_le₀ (by exact_mod_cast hle) (Nat.cast_nonneg _)

/-- `test_step` threads the model through its batch loop unchanged: no
statement of the loop writes to it. -/
theorem testStepGo_model (forward : M → ι → ℚ) (lossFn : List ℚ → List ℚ → ℚ) :
    ∀ (dl : List (BatchT ι)) (acc out : StepAcc M),
      testStepGo forward lossFn dl acc = some out → out.model = acc.model := by
  intro dl
  induction dl with
  | nil =>
    intro acc out h
    rw [testStepGo] at h
    injection h with h1
    rw [← h1]
  | cons b rest ih =>
    intro acc out h
    rw [testStepGo] at h
    by_cases hb : b.length = 0
    · rw [if_pos hb] at h; cases h
    · rw [if_neg hb] at h
      have h2 := ih _ out h
      exact h2

/-- Accumulated loss and accuracy sums of the `train_step` batch loop:
the sums of the per-batch scalars along the model trajectory. -/
theorem trainStepGo_sums (forward : M → ι → ℚ) (lossFn : List ℚ → List ℚ → ℚ)
    (optUpdate : M → BatchT ι → M) :
    ∀ (dl : List (BatchT ι)) (acc out : StepAcc M),
      trainStepGo forward lossFn optUpdate dl acc = some out →
      out.lossSum = acc.lossSum +
          ((trainBatchVals forward lossFn optUpdate acc.model dl).map Prod.fst).sum ∧
        out.accSum = acc.accSum +
          ((trainBatchVals forward lossFn optUpdate acc.model dl).map Prod.snd).sum := by
  intro dl
  induction dl with
  | nil =>
    intro acc out h
    rw [trainStepGo] at h
    injection h with h1
    rw [← h1, trainBatchVals]
    simp
  | cons b rest ih =>
    intro acc out h
    rw [trainStepGo] at h
    by_cases hb : b.length = 0
    · rw [if_pos hb] at h; cases h
    · rw [if_neg hb] at h
      obtain ⟨e1, e2⟩ := ih _ out h
      rw [trainBatchVals]
      constructor
      · rw [e1]
        simp only [List.map_cons, List.sum_cons]
        ring
      · rw [e2]
        simp only [List.map_cons, List.sum_cons]
        ring

/-- Accumulated loss and accuracy sums of the `test_step` batch loop:
the sums of the per-batch scalars at the fixed input model. -/
theorem testStepGo_sums (forward : M → ι → ℚ) (lossFn : List ℚ → List ℚ → ℚ) :
    ∀ (dl : List (BatchT ι)) (acc out : StepAcc M),
      testStepGo forward lossFn dl acc = some out →
      out.lossSum = acc.lossSum + (dl.map (batchLoss forward lossFn acc.model)).sum ∧
        out.accSum = acc.accSum + (dl.map (batchAcc forward acc.model)).sum := by
  intro dl
  induction dl with
  | nil =>
    intro acc out h
    rw [testStepGo] at h
    injection h with h1
    rw [← h1]
    simp
  | cons b rest ih =>
    intro acc out h
    rw [testStepGo] at h
    by_cases hb : b.length = 0
    · rw [if_pos hb] at h; cases h
    · rw [if_neg hb] at h
      obtain ⟨e1, e2⟩ := ih _ out h
      constructor
      · rw [e1]
        simp only [List.map_cons, List.sum_cons]
        ring
      · rw [e2]
        simp only [List.map_cons, List.sum_cons]
        ring

/-- The accuracy sum grows by an amount between 0 and 1 per batch. -/
theorem trainStepGo_acc_bounds (forward : M → ι → ℚ) (lossFn : List ℚ → List ℚ → ℚ)
    (optUpdate : M → BatchT ι → M) :
    ∀ (dl : List (BatchT ι)) (acc out : StepAcc M),
      trainStepGo forward lossFn optUpdate dl acc = some out →
      acc.accSum ≤ out.accSum ∧ out.accSum ≤ acc.accSum + (dl.length : ℚ) := by
  intro dl
  induction dl with
  | nil =>
    intro acc out h
    rw [trainStepGo] at h
    injection h with h1
    rw [← h1]
    simp
  | cons b rest ih =>
    intro acc out h
    rw [trainStepGo] at h
    by_cases hb : b.length = 0
    · rw [if_pos hb] at h; cases h
    · rw [if_neg hb] at h
      obtain ⟨e1, e2⟩ := ih _ out h
      have hb0 := batchAcc_nonneg forward acc.model b
      have hb1 := batchAcc_le_one forward acc.model b
      simp only [List.length_cons] at *
      constructor
      · linarith
      · push_cast
        linarith

theorem testStepGo_acc_bounds (forward : M → ι → ℚ) (lossFn : List ℚ → List ℚ → ℚ) :
    ∀ (dl : List (BatchT ι)) (acc out : StepAcc M),
      testStepGo forward lossFn dl acc = some out →
      acc.accSum ≤ out.accSum ∧ out.accSum ≤ acc.accSum + (dl.length : ℚ) := by
  intro dl
  induction dl with
  | nil =>
    intro acc out h
    rw [testStepGo] at h
    injection h with h1
    rw [← h1]
    simp
  | cons b rest ih =>
    intro acc out h
    rw [testStepGo] at h
    by_cases hb : b.length = 0
    · rw [if_pos hb] at h; cases h
    · rw [if_neg hb] at h
      obtain ⟨e1, e2⟩ := ih _ out h
      have hb0 := batchAcc_nonneg forward acc.model b
      have hb1 := batchAcc_le_one forward acc.model b
      simp only [List.length_cons] at *
      constructor
      · linarith
      · push_cast
        linarith

/-- With a loss function that only returns nonnegative values, the
accumulated loss sum never decreases. -/
theorem trainStepGo_loss_mono (forward : M → ι → ℚ) (lossFn : List ℚ → List ℚ → ℚ)
    (optUpdate : M → BatchT ι → M) (hlf : ∀ ps ys, 0 ≤ lossFn ps ys) :
    ∀ (dl : List (BatchT ι)) (acc out : StepAcc M),
      trainStepGo forward lossFn optUpdate dl acc = some out →
      acc.lossSum ≤ out.lossSum := by
  intro dl
  induction dl with
  | nil =>
    intro acc out h
    rw [trainStepGo] at h
    injection h with h1
    rw [← h1]
  | cons b rest ih =>
    intro acc out h
    rw [trainStepGo] at h
    by_cases hb : b.length = 0
    · rw [if_pos hb] at h; cases h
    · rw [if_neg hb] at h
      have e1 := ih _ out h
      have hl := hlf (batchPreds forward acc.model b) (b.map Prod.snd)
      simp only at e1
      unfold batchLoss at e1
      linarith

theorem testStepGo_loss_mono (forward : M → ι → ℚ) (lossFn : List ℚ → List ℚ → ℚ)
    (hlf : ∀ ps ys, 0 ≤ lossFn ps ys) :
    ∀ (dl : List (BatchT ι)) (acc out : StepAcc M),
      testStepGo forward lossFn dl acc = some out →
      acc.lossSum ≤ out.lossSum := by
  intro dl
  induction dl with
  | nil =>
    intro acc out h
    rw [testStepGo] at h
    injection h with h1
    rw [← h1]
  | cons b rest ih =>
    intro acc out h
    rw [testStepGo] at h
    by_cases hb : b.length = 0
    · rw [if_pos hb] at h; cases h
    · rw [if_neg hb] at h
      have e1 := ih _ out h
      have hl := hlf (batchPreds forward acc.model b) (b.map Prod.snd)
      simp only at e1
      unfold batchLoss at e1
      linarith

/-! ### Claim theorems: the step routines -/

/-- **C4**: `test_step` never mutates the model: the model object after
a call (threaded through the embedded batch loop, which contains no
parameter update, gradient computation or optimizer interaction) equals
the model passed in, for every model, dataloader, loss function. -/
theorem test_step_preserves_model (forward : M → ι → ℚ)
    (lossFn : List ℚ → List ℚ → ℚ) (m : M) (dl : List (BatchT ι)) :
    (test_step forward lossFn m dl).1 = m := by
  rw [test_step]
  split
  · rfl
  · rename_i a hgo
    have hm := testStepGo_model forward lossFn dl _ a hgo
    split
    · exact hm
    · exact hm

/-- **C9**: on an empty data source both step routines fail (the final
division by the number of batches divides by zero and the recall/F1
computation receives empty sequences) instead of returning metrics. -/
theorem step_empty_dataloader_fails (forward : M → ι → ℚ)
    (lossFn : List ℚ → List ℚ → ℚ) (optUpdate : M → BatchT ι → M) (m : M) :
    train_step forward lossFn optUpdate m ([] : List (BatchT ι)) = none ∧
      (test_step forward lossFn m ([] : List (BatchT ι))).2 = none :=
  ⟨rfl, rfl⟩

/-- **C5**: whenever `train_step` / `test_step` return metrics, the
returned loss and accuracy are the accumulated per-batch sums divided by
the number of batches (the arithmetic mean over batches, not over
examples); per-batch accuracy is the fraction of examples whose rounded
prediction equals the target. -/
theorem step_mean_over_batches (forward : M → ι → ℚ) (lossFn : List ℚ → List ℚ → ℚ)
    (optUpdate : M → BatchT ι → M) (m : M) (dl : List (BatchT ι)) :
    (∀ m2 l a r f, train_step forward lossFn optUpdate m dl = some (m2, l, a, r, f) →
      l = ((trainBatchVals forward lossFn optUpdate m dl).map Prod.fst).sum /
          (dl.length : ℚ) ∧
        a = ((trainBatchVals forward lossFn optUpdate m dl).map Prod.snd).sum /
          (dl.length : ℚ)) ∧
    (∀ l a r f, (test_step forward lossFn m dl).2 = some (l, a, r, f) →
      l = (dl.map (batchLoss forward lossFn m)).sum / (dl.length : ℚ) ∧
        a = (dl.map (batchAcc forward m)).sum / (dl.length : ℚ)) := by
  constructor
  · intro m2 l a r f h
    rw [train_step] at h
    cases hgo : trainStepGo forward lossFn optUpdate dl ⟨m, 0, 0, [], []⟩ with
    | none => rw [hgo] at h; cases h
    | some s =>
      rw [hgo, Option.some_bind] at h
      by_cases hd : dl.length = 0
      · rw [if_pos hd] at h; cases h
      · rw [if_neg hd] at h
        obtain ⟨e1, e2⟩ := trainStepGo_sums forward lossFn optUpdate dl _ s hgo
        simp only [Option.some.injEq, Prod.mk.injEq] at h
        obtain ⟨hm, hl, ha, hr, hf⟩ := h
        constructor
        · rw [← hl, e1]
          simp
        · rw [← ha, e2]
          simp
  · intro l a r f h
    rw [test_step] at h
    cases hgo : testStepGo forward lossFn dl (⟨m, 0, 0, [], []⟩ : StepAcc M) with
    | none => rw [hgo] at h; cases h
    | some s =>
      rw [hgo] at h
      dsimp only at h
      by_cases hd : dl.length = 0
      · rw [if_pos hd] at h; cases h
      · rw [if_neg hd] at h
        obtain ⟨e1, e2⟩ := testStepGo_sums forward lossFn dl _ s hgo
        simp only [Option.some.injEq, Prod.mk.injEq] at h
        obtain ⟨hl, ha, hr, hf⟩ := h
        constructor
        · rw [← hl, e1]
          simp
        · rw [← ha, e2]
          simp

theorem step_mean_over_batches_witness :
    ((2 : ℚ) = ((trainBatchVals (fun (_ : Unit) (_ : Unit) => (1 : ℚ)) (fun _ _ => 2)
          (fun m _ => m) () [[((), 1)]]).map Prod.fst).sum /
        (([[((), 1)]] : List (BatchT Unit)).length : ℚ) ∧
      (1 : ℚ) = ((trainBatchVals (fun (_ : Unit) (_ : Unit) => (1 : ℚ)) (fun _ _ => 2)
          (fun m _ => m) () [[((), 1)]]).map Prod.snd).sum /
        (([[((), 1)]] : List (BatchT Unit)).length : ℚ)) ∧
    ((2 : ℚ) = (([[((), 1)]] : List (BatchT Unit)).map
          (batchLoss (fun (_ : Unit) (_ : Unit) => (1 : ℚ)) (fun _ _ => 2) ())).sum /
        (([[((), 1)]] : List (BatchT Unit)).length : ℚ) ∧
      (1 : ℚ) = (([[((), 1)]] : List (BatchT Unit)).map
          (batchAcc (fun (_ : Unit) (_ : Unit) => (1 : ℚ)) ())).sum /
        (([[((), 1)]] : List (BatchT Unit)).length : ℚ)) :=
  ⟨(step_mean_over_batches (fun (_ : Unit) (_ : Unit) => (1 : ℚ)) (fun _ _ => 2)
      (fun m _ => m) () [[((), 1)]]).1 () 2 1 1 1 (by with_unfolding_all decide),
   (step_mean_over_batches (fun (_ : Unit) (_ : Unit) => (1 : ℚ)) (fun _ _ => 2)
      (fun m _ => m) () [[((), 1)]]).2 2 1 1 1 (by with_unfolding_all decide)⟩

/-- **C7** (amended): whenever `train_step` / `test_step` return
metrics, accuracy, recall and F1 lie in `[0,1]`; the returned loss is
nonnegative provided the externally supplied loss function returns
nonnegative values (the code imposes no sign constraint on it). -/
theorem step_metric_ranges (forward : M → ι → ℚ) (lossFn : List ℚ → List ℚ → ℚ)
    (optUpdate : M → BatchT ι → M) (m : M) (dl : List (BatchT ι)) :
    (∀ m2 l a r f, train_step forward lossFn optUpdate m dl = some (m2, l, a, r, f) →
      (0 ≤ a ∧ a ≤ 1) ∧ (0 ≤ r ∧ r ≤ 1) ∧ (0 ≤ f ∧ f ≤ 1) ∧
        ((∀ ps ys, 0 ≤ lossFn ps ys) → 0 ≤ l)) ∧
    (∀ l a r f, (test_step forward lossFn m dl).2 = some (l, a, r, f) →
      (0 ≤ a ∧ a ≤ 1) ∧ (0 ≤ r ∧ r ≤ 1) ∧ (0 ≤ f ∧ f ≤ 1) ∧
        ((∀ ps ys, 0 ≤ lossFn ps ys) → 0 ≤ l)) := by
  constructor
  · intro m2 l a r f h
    rw [train_step] at h
    cases hgo : trainStepGo forward lossFn optUpdate dl ⟨m, 0, 0, [], []⟩ with
    | none => rw [hgo] at h; cases h
    | some s =>
      rw [hgo, Option.some_bind] at h
      by_cases hd : dl.length = 0
      · rw [if_pos hd] at h; cases h
      · rw [if_neg hd] at h
        simp only [Option.some.injEq, Prod.mk.injEq] at h
        obtain ⟨hm, hl, ha, hr, hf⟩ := h
        have hlen : (0 : ℚ) < (dl.length : ℚ) := by
          exact_mod_cast Nat.pos_of_ne_zero hd
        obtain ⟨hacc1, hacc2⟩ := trainStepGo_acc_bounds forward lossFn optUpdate dl _ s hgo
        simp only at hacc1 hacc2
        refine ⟨⟨?_, ?_⟩, ?_, ?_, ?_⟩
        · rw [← ha]
          exact div_nonneg (by linarith) (by linarith)
        · rw [← ha]
          rw [div_le_one hlen]
          linarith
        · rw [← hr]
          exact ⟨weightedRecall_nonneg _, weightedRecall_le_one _⟩
        · rw [← hf]
          exact ⟨weightedF1_nonneg _, weightedF1_le_one _⟩
        · intro hlf
          have hls := trainStepGo_loss_mono forward lossFn optUpdate hlf dl _ s hgo
          simp only at hls
          rw [← hl]
          exact div_nonneg (by linarith) (by linarith)
  · intro l a r f h
    rw [test_step] at h
    cases hgo : testStepGo forward lossFn dl (⟨m, 0, 0, [], []⟩ : StepAcc M) with
    | none => rw [hgo] at h; cases h
    | some s =>
      rw [hgo] at h
      dsimp only at h
      by_cases hd : dl.length = 0
      · rw [if_pos hd] at h; cases h
      · rw [if_neg hd] at h
        simp only [Option.some.injEq, Prod.mk.injEq] at h
        obtain ⟨hl, ha, hr, hf⟩ := h
        have hlen : (0 : ℚ) < (dl.length : ℚ) := by
          exact_mod_cast Nat.pos_of_ne_zero hd
        obtain ⟨hacc1, hacc2⟩ := testStepGo_acc_bounds forward lossFn dl _ s hgo
        simp only at hacc1 hacc2
        refine ⟨⟨?_, ?_⟩, ?_, ?_, ?_⟩
        · rw [← ha]
          exact div_nonneg (by linarith) (by linarith)
        · rw [← ha]
          rw [div_le_one hlen]
          linarith
        · rw [← hr]
          exact ⟨weightedRecall_nonneg _, weightedRecall_le_one _⟩
        · rw [← hf]
          exact ⟨weightedF1_nonneg _, weightedF1_le_one _⟩
        · intro hlf
          have hls := testStepGo_loss_mono forward lossFn hlf dl _ s hgo
          simp only at hls
          rw [← hl]
          exact div_nonneg (by linarith) (by linarith)

theorem step_metric_ranges_witness :
    ((0 : ℚ) ≤ 1 ∧ (1 : ℚ) ≤ 1) ∧ ((0 : ℚ) ≤ 1 ∧ (1 : ℚ) ≤ 1) ∧
      ((0 : ℚ) ≤ 1 ∧ (1 : ℚ) ≤ 1) ∧
      ((∀ _ps _ys : List ℚ, (0 : ℚ) ≤ 2) → (0 : ℚ) ≤ 2) :=
  (step_metric_ranges (fun (_ : Unit) (_ : Unit) => (1 : ℚ)) (fun _ _ => 2)
      (fun m _ => m) () [[((), 1)]]).2 2 1 1 1 (by with_unfolding_all decide)

/-- The loss part of the range claim fails as stated: the loss function
is an external parameter and nothing in the code keeps the returned loss
nonnegative — with a loss function returning `-1`, `train_step` on a
nonempty data source returns loss `-1 < 0`. -/
theorem step_loss_negative_counterexample :
    train_step (fun (_ : Unit) (_ : Unit) => (0 : ℚ)) (fun _ _ => -1) (fun m _ => m) ()
        [[((), 0)]] = some ((), -1, 1, 1, 1) ∧ ¬ (0 : ℚ) ≤ -1 := by
  constructor
  · with_unfolding_all decide
  · norm_num

end Engine
